import Mathlib

/-!
# Verification of the similares-scraper crawl engine (src/main.py)

Shallow embedding of the crawl pipeline in `src/main.py`:
proxy rotation (`ProxyRotator`), the retry/backoff loop
(`graphql_post_json`), per-range fetching (`fetch_page`), range planning
and the crawl driver (`crawl_all_products`), and the aggregation /
deduplication pass that produces `products_all.jsonl` and
`manifest.json`.

Network calls are modelled by oracles (functions supplying each
attempt's outcome), time by the rational backoff values the code would
pass to `asyncio.sleep`, and the filesystem by an association list of
artifacts keyed by the range start index (the zero-padded file names
`products_{from:08d}_{to:08d}.json` sort in ascending start order).
-/

namespace Scraper

/-- A catalog record as the aggregation loop sees it: `productId` is
read with `p.get("productId")` (so it may be absent, modelled `none`,
or present but empty/falsy, modelled `some ""`); the rest of the JSON
object is opaque payload. -/
structure Record where
  productId : Option String
  payload : String
deriving DecidableEq, Repr

/-- Python truthiness of the `productId` value used in
`if pid and pid not in seen`: absent (`None`) and the empty string are
falsy. -/
def truthyPid : Option String → Bool
  | none => false
  | some s => s ≠ ""

/-- The deduplication loop of `crawl_all_products` (src/main.py lines
282-296), with the `seen` set made explicit: for each record `p`,
`pid = p.get("productId")`; if `pid` is truthy and not in `seen`, add
it to `seen` and emit the record, otherwise skip it. -/
def dedupAux (seen : List String) : List Record → List Record
  | [] => []
  | p :: rest =>
    match p.productId with
    | some pid =>
      if pid ≠ "" ∧ pid ∉ seen then p :: dedupAux (pid :: seen) rest
      else dedupAux seen rest
    | none => dedupAux seen rest

/-- The `seen` set after the deduplication loop has processed `l`. -/
def seenAfter (seen : List String) : List Record → List String
  | [] => seen
  | p :: rest =>
    match p.productId with
    | some pid =>
      if pid ≠ "" ∧ pid ∉ seen then seenAfter (pid :: seen) rest
      else seenAfter seen rest
    | none => seenAfter seen rest

/-- Deduplication as run by the code, starting from `seen = set()`. -/
def dedup (l : List Record) : List Record := dedupAux [] l

theorem dedupAux_append (seen : List String) (as bs : List Record) :
    dedupAux seen (as ++ bs)
      = dedupAux seen as ++ dedupAux (seenAfter seen as) bs := by
  induction as generalizing seen with
  | nil => simp [dedupAux, seenAfter]
  | cons p rest ih =>
    cases h : p.productId with
    | none => simp [dedupAux, seenAfter, h, ih]
    | some pid =>
      by_cases hk : pid ≠ "" ∧ pid ∉ seen
      · simp [dedupAux, seenAfter, h, hk, ih]
      · simp [dedupAux, seenAfter, h, hk, ih]

theorem seenAfter_append (seen : List String) (as bs : List Record) :
    seenAfter seen (as ++ bs) = seenAfter (seenAfter seen as) bs := by
  induction as generalizing seen with
  | nil => simp [seenAfter]
  | cons p rest ih =>
    cases h : p.productId with
    | none => simp [seenAfter, h, ih]
    | some pid =>
      by_cases hk : pid ≠ "" ∧ pid ∉ seen
      · simp [seenAfter, h, hk, ih]
      · simp [seenAfter, h, hk, ih]

/-- Membership in `seen` only grows. -/
theorem mem_seenAfter_of_mem (seen : List String) (l : List Record)
    (s : String) (hs : s ∈ seen) : s ∈ seenAfter seen l := by
  induction l generalizing seen with
  | nil => simpa [seenAfter] using hs
  | cons p rest ih =>
    cases h : p.productId with
    | none => simpa [seenAfter, h] using ih seen hs
    | some pid =>
      by_cases hk : pid ≠ "" ∧ pid ∉ seen
      · simpa [seenAfter, h, hk] using ih (pid :: seen) (by
          exact List.mem_cons_of_mem _ hs)
      · simpa [seenAfter, h, hk] using ih seen hs

/-- Once a truthy identifier has been scanned, it is in the `seen`
set, whether its record was kept or dropped. -/
theorem pid_mem_seenAfter (seen : List String) (l : List Record)
    (r : Record) (hr : r ∈ l) (pid : String)
    (hp : r.productId = some pid) (hne : pid ≠ "") :
    pid ∈ seenAfter seen l := by
  induction l generalizing seen with
  | nil => cases hr
  | cons p rest ih =>
    rcases List.mem_cons.mp hr with rfl | hr'
    · by_cases hmem : pid ∈ seen
      · have : ¬ (pid ≠ "" ∧ pid ∉ seen) := by simp [hmem]
        simp only [seenAfter, hp, this, if_neg, not_false_eq_true]
        exact mem_seenAfter_of_mem _ _ _ hmem
      · simp only [seenAfter, hp, if_pos (And.intro hne hmem)]
        exact mem_seenAfter_of_mem _ _ _ (List.mem_cons_self _ _)
    · cases h : p.productId with
      | none => simp only [seenAfter, h]; exact ih _ hr'
      | some q =>
        by_cases hk : q ≠ "" ∧ q ∉ seen
        · simp only [seenAfter, h, if_pos hk]; exact ih _ hr'
        · simp only [seenAfter, h, if_neg hk]; exact ih _ hr'

/-- A record whose truthy identifier is already in `seen` is dropped
and leaves the `seen` set untouched. -/
theorem dedupAux_cons_seen (seen : List String) (zs : List Record)
    (r : Record) (pid : String) (hp : r.productId = some pid)
    (hmem : pid ∈ seen) :
    dedupAux seen (r :: zs) = dedupAux seen zs ∧
      seenAfter seen (r :: zs) = seenAfter seen zs := by
  have hnk : ¬ (pid ≠ "" ∧ pid ∉ seen) := by simp [hmem]
  constructor
  · simp only [dedupAux, hp, hnk, if_neg, not_false_eq_true]
  · simp only [seenAfter, hp, hnk, if_neg, not_false_eq_true]

/-- Every record emitted by the deduplication loop has a truthy
identifier not yet in `seen`, and is the *first* record of the input
carrying that identifier. -/
theorem mem_dedupAux_first (l : List Record) (seen : List String)
    (r : Record) (hr : r ∈ dedupAux seen l) :
    ∃ s, r.productId = some s ∧ s ≠ "" ∧ s ∉ seen ∧
      l.find? (fun x => x.productId == some s) = some r := by
  induction l generalizing seen with
  | nil => cases hr
  | cons p rest ih =>
    cases hp : p.productId with
    | none =>
      rw [dedupAux, hp] at hr
      obtain ⟨s, hs1, hs2, hs3, hs4⟩ := ih seen hr
      refine ⟨s, hs1, hs2, hs3, ?_⟩
      rw [List.find?_cons_of_neg _ (by simp [hp]), hs4]
    | some q =>
      by_cases hk : q ≠ "" ∧ q ∉ seen
      · simp only [dedupAux, hp, if_pos hk] at hr
        rcases List.mem_cons.mp hr with rfl | hr'
        · exact ⟨q, hp, hk.1, hk.2,
            List.find?_cons_of_pos _ (by simp [hp])⟩
        · obtain ⟨s, hs1, hs2, hs3, hs4⟩ := ih (q :: seen) hr'
          have hsq : s ≠ q := by
            intro h; exact hs3 (h ▸ List.mem_cons_self _ _)
          refine ⟨s, hs1, hs2, fun h => hs3 (List.mem_cons_of_mem _ h), ?_⟩
          rw [List.find?_cons_of_neg _
            (by simp only [hp, beq_iff_eq, Option.some.injEq]
                exact fun h => hsq h.symm), hs4]
      · simp only [dedupAux, hp, if_neg hk] at hr
        obtain ⟨s, hs1, hs2, hs3, hs4⟩ := ih seen hr
        have hsq : s ≠ q := by
          rcases not_and_or.mp hk with h | h
          · intro he; exact hs2 (he.trans (not_not.mp (by simpa using h)))
          · intro he; exact hs3 (he ▸ not_not.mp h)
        refine ⟨s, hs1, hs2, hs3, ?_⟩
        rw [List.find?_cons_of_neg _
          (by simp only [hp, beq_iff_eq, Option.some.injEq]
              exact fun h => hsq h.symm), hs4]

/-- C7. Deduplication is first-writer-wins and idempotent: a later
record `r'` with the same (truthy) identifier as an earlier record `r`
is dropped whatever its payload, so the output is the same as if `r'`
had not appeared at all; and every surviving record is the first
record of the scan order carrying its identifier. -/
theorem dedup_first_writer_wins (xs ys zs : List Record)
    (r r' : Record) (pid : String) (hr : r.productId = some pid)
    (hne : pid ≠ "") (hr' : r'.productId = some pid) :
    dedup (xs ++ r :: ys ++ r' :: zs) = dedup (xs ++ r :: ys ++ zs) ∧
      ∀ q ∈ dedup (xs ++ r :: ys ++ r' :: zs),
        (xs ++ r :: ys ++ r' :: zs).find?
          (fun x => x.productId == q.productId) = some q := by
  have hmem : pid ∈ seenAfter [] (xs ++ r :: ys) :=
    pid_mem_seenAfter [] _ r (by simp) pid hr hne
  constructor
  · calc dedup (xs ++ r :: ys ++ r' :: zs)
        = dedupAux [] ((xs ++ r :: ys) ++ r' :: zs) := by
          rw [dedup]
      _ = dedupAux [] (xs ++ r :: ys)
            ++ dedupAux (seenAfter [] (xs ++ r :: ys)) (r' :: zs) :=
          dedupAux_append _ _ _
      _ = dedupAux [] (xs ++ r :: ys)
            ++ dedupAux (seenAfter [] (xs ++ r :: ys)) zs := by
          rw [(dedupAux_cons_seen _ zs r' pid hr' hmem).1]
      _ = dedupAux [] ((xs ++ r :: ys) ++ zs) :=
          (dedupAux_append _ _ _).symm
      _ = dedup (xs ++ r :: ys ++ zs) := by
          rw [dedup]
  · intro q hq
    obtain ⟨s, hs1, hs2, hs3, hs4⟩ := mem_dedupAux_first _ _ _ hq
    rw [hs1]
    exact hs4

/-- C9. A record whose identifier is absent (`None`) or falsy (the
empty string) is silently dropped: removing it from the input changes
neither the deduplicated output nor the final `seen` set, and no such
record ever appears in the output. -/
theorem dedup_drops_falsy_pid (xs ys : List Record) (r : Record)
    (hfalsy : r.productId = none ∨ r.productId = some "") :
    dedup (xs ++ r :: ys) = dedup (xs ++ ys) ∧
      seenAfter [] (xs ++ r :: ys) = seenAfter [] (xs ++ ys) ∧
      ∀ q ∈ dedup (xs ++ r :: ys), ∃ s, q.productId = some s ∧ s ≠ "" := by
  have hstep : ∀ seen : List String,
      dedupAux seen (r :: ys) = dedupAux seen ys ∧
        seenAfter seen (r :: ys) = seenAfter seen ys := by
    intro seen
    rcases hfalsy with h | h
    · exact ⟨by rw [dedupAux, h], by rw [seenAfter, h]⟩
    · constructor
      · simp only [dedupAux, h, ne_eq, not_true_eq_false, false_and,
          if_false]
      · simp only [seenAfter, h, ne_eq, not_true_eq_false, false_and,
          if_false]
  refine ⟨?_, ?_, ?_⟩
  · unfold dedup
    rw [dedupAux_append, dedupAux_append, (hstep _).1]
  · rw [seenAfter_append, seenAfter_append, (hstep _).2]
  · intro q hq
    obtain ⟨s, hs1, hs2, _, _⟩ := mem_dedupAux_first _ _ _ hq
    exact ⟨s, hs1, hs2⟩

/-- The `ProxyRotator` of src/main.py lines 98-111: a fixed list of
proxy URLs, its cached length `n`, and the rotation cursor `idx`.
The `asyncio.Lock` only serialises `next`; sequential state passing
models the serialised accesses. -/
structure ProxyRotator where
  proxies : List String
  n : Nat
  idx : Nat
deriving DecidableEq, Repr

/-- `ProxyRotator.__init__`. -/
def ProxyRotator.init (proxies : List String) : ProxyRotator :=
  { proxies := proxies, n := proxies.length, idx := 0 }

/-- `ProxyRotator.next`: return the address at the pre-advance cursor
and advance the cursor modulo `n`; `none` on an empty pool. -/
def ProxyRotator.next (r : ProxyRotator) : Option String × ProxyRotator :=
  if r.n = 0 then (none, r)
  else (r.proxies.get? r.idx, { r with idx := (r.idx + 1) % r.n })

/-- `k` successive calls of `next`, collecting the returned addresses. -/
def ProxyRotator.nextN (r : ProxyRotator) : Nat → List (Option String) × ProxyRotator
  | 0 => ([], r)
  | k + 1 =>
    let step := r.next
    let rest := step.2.nextN k
    (step.1 :: rest.1, rest.2)

theorem ProxyRotator.nextN_zero (r : ProxyRotator) : r.nextN 0 = ([], r) :=
  rfl

theorem ProxyRotator.nextN_succ (r : ProxyRotator) (k : Nat) :
    r.nextN (k + 1)
      = (r.next.1 :: (r.next.2.nextN k).1, (r.next.2.nextN k).2) :=
  rfl

theorem ProxyRotator.nextN_add (r : ProxyRotator) (a b : Nat) :
    r.nextN (a + b)
      = (((r.nextN a).1 ++ ((r.nextN a).2.nextN b).1),
          ((r.nextN a).2.nextN b).2) := by
  induction a generalizing r with
  | zero => simp [nextN_zero]
  | succ a ih =>
    have h : a + 1 + b = (a + b) + 1 := by omega
    rw [h, nextN_succ, nextN_succ, ih, List.cons_append]

/-- Running `next` `k` times from cursor `i` on a pool of `l.length`
addresses, without wrapping except possibly on the last call: the
outputs are the `k` addresses starting at position `i`, and the cursor
ends at `(i + k) % l.length`. -/
theorem ProxyRotator.nextN_spec (l : List String) (hl : l ≠ []) :
    ∀ (k i : Nat), i < l.length → i + k ≤ l.length →
      ProxyRotator.nextN ⟨l, l.length, i⟩ k
        = (((l.drop i).take k).map some,
            ⟨l, l.length, (i + k) % l.length⟩) := by
  intro k
  induction k with
  | zero =>
    intro i hi _
    rw [nextN_zero]
    simp [Nat.mod_eq_of_lt hi]
  | succ k ih =>
    intro i hi hik
    have hn : l.length ≠ 0 := by
      intro h; exact hl (List.eq_nil_of_length_eq_zero h)
    have hget : l.get? i = some (l.get ⟨i, hi⟩) := List.get?_eq_get hi
    have hdrop : l.drop i = l.get ⟨i, hi⟩ :: l.drop (i + 1) := by
      rw [List.drop_eq_getElem_cons hi]
      rfl
    have hstep : (⟨l, l.length, i⟩ : ProxyRotator).next
        = (some (l.get ⟨i, hi⟩), ⟨l, l.length, (i + 1) % l.length⟩) := by
      rw [next]
      simp [hn, hget]
    rcases Nat.lt_or_ge (i + 1) l.length with hlt | hge
    · have hmod : (i + 1) % l.length = i + 1 := Nat.mod_eq_of_lt hlt
      rw [nextN_succ, hstep, hmod, ih (i + 1) hlt (by omega)]
      rw [hdrop, List.take_succ_cons, List.map_cons]
      have harith : i + 1 + k = i + (k + 1) := by omega
      simp [harith]
    · have hend : i + 1 = l.length := by omega
      have hk0 : k = 0 := by omega
      subst hk0
      rw [nextN_succ, hstep, nextN_zero]
      rw [hdrop, List.take_succ_cons, List.take_zero, List.map_cons,
        List.map_nil]

/-- C6. For a pool built from a non-empty list of `N` addresses, `N`
consecutive `next()` calls return each address exactly once, in
insertion order, and the `(N+1)`-th call returns the first address
again. -/
theorem proxyRotator_round_robin (l : List String) (hl : l ≠ []) :
    ((ProxyRotator.init l).nextN (l.length + 1)).1
      = l.map some ++ [l.head?] := by
  have hlen : 0 < l.length := List.length_pos.mpr hl
  have h1 : (ProxyRotator.init l).nextN l.length
      = (l.map some, ⟨l, l.length, 0⟩) := by
    have := ProxyRotator.nextN_spec l hl l.length 0 hlen (by omega)
    simpa [ProxyRotator.init, Nat.mod_self] using this
  have h2 : ProxyRotator.nextN ⟨l, l.length, 0⟩ 1
      = ([l.head?], ⟨l, l.length, 1 % l.length⟩) := by
    have := ProxyRotator.nextN_spec l hl 1 0 hlen (by omega)
    cases l with
    | nil => exact absurd rfl hl
    | cons a t => simpa using this
  rw [ProxyRotator.nextN_add _ l.length 1, h1, h2]

/-- C6 witness. -/
theorem proxyRotator_round_robin_witness :
    (["a", "b", "c"] : List String) ≠ [] ∧
      ((ProxyRotator.init ["a", "b", "c"]).nextN 4).1
        = ([some "a", some "b", some "c"] ++ [some "a"]) :=
  ⟨by decide, proxyRotator_round_robin ["a", "b", "c"] (by decide)⟩

/-- Backoff value computed at src/main.py line 158:
`min(2.0 * attempt, 8.0) + random.uniform(0.0, 0.5)`, with the jitter
draw abstracted as an argument. -/
def backoff (attempt : Nat) (jitter : ℚ) : ℚ :=
  min (2 * (attempt : ℚ)) 8 + jitter

/-- The retry loop body of `graphql_post_json` (src/main.py lines
132-159) over a list of attempt numbers: `oracle a` is the outcome of
the whole `try` block on attempt `a` (network call, status check, JSON
decode, GraphQL error check); on failure the attempt's exception
replaces `last_exc` and the backoff sleep is recorded. -/
def attemptLoop (oracle : Nat → Except E A) (jitter : Nat → ℚ) :
    List Nat → Option E → Except (Option E) A × List ℚ
  | [], last => (.error last, [])
  | a :: rest, last =>
    match oracle a with
    | .ok v => (.ok v, [])
    | .error e =>
      let r := attemptLoop oracle jitter rest (some e)
      (r.1, backoff a (jitter a) :: r.2)

/-- `graphql_post_json` (src/main.py lines 113-161): attempts numbered
`1 .. max_retries` (`for attempt in range(1, max_retries + 1)`), then
`raise RuntimeError(... {last_exc})` carrying the last cause. Returns
the outcome together with the list of backoff sleeps performed. -/
def graphql_post_json (oracle : Nat → Except E A) (jitter : Nat → ℚ)
    (max_retries : Nat := 4) : Except (Option E) A × List ℚ :=
  attemptLoop oracle jitter (List.range' 1 max_retries) none

theorem attemptLoop_all_fail (oracle : Nat → Except E A) (err : Nat → E)
    (jitter : Nat → ℚ) :
    ∀ (n a : Nat) (last : Option E),
      (∀ k, a ≤ k → k < a + n → oracle k = .error (err k)) →
      attemptLoop oracle jitter (List.range' a n) last
        = (Except.error (if n = 0 then last else some (err (a + n - 1))),
            (List.range' a n).map fun t => backoff t (jitter t)) := by
  intro n
  induction n with
  | zero => intro a last _; simp [attemptLoop]
  | succ n ih =>
    intro a last hf
    rw [List.range'_succ]
    have ha : oracle a = .error (err a) := hf a (le_refl a) (by omega)
    have hrec := ih (a + 1) (some (err a))
      (fun k hk1 hk2 => hf k (by omega) (by omega))
    simp only [attemptLoop, ha]
    rw [hrec]
    cases n with
    | zero => simp
    | succ m =>
      have h2 : a + 1 + (m + 1) - 1 = a + (m + 1 + 1) - 1 := by omega
      simp only [Nat.succ_ne_zero, if_false, List.map_cons, h2]

/-- C5. Under permanent failure `graphql_post_json` performs exactly
`max_retries` attempts (sleeping once after each failed attempt,
including the last) and surfaces a terminal failure carrying the last
underlying cause; the sleep after failed attempt `k` is
`min(2k, 8) + jitter_k`; with every jitter in `[0, 1/2)` the sleeps
are non-decreasing in `k` until the `8` cap, and from attempt 4 on the
base is the constant `8` plus jitter. -/
theorem graphql_post_json_permanent_failure (oracle : Nat → Except E A)
    (err : Nat → E) (jitter : Nat → ℚ) (max_retries : Nat)
    (hmr : 1 ≤ max_retries)
    (hfail : ∀ k, 1 ≤ k → k ≤ max_retries → oracle k = .error (err k))
    (hj : ∀ k, 0 ≤ jitter k ∧ jitter k < 1 / 2) :
    (graphql_post_json oracle jitter max_retries).1
        = .error (some (err max_retries)) ∧
      (graphql_post_json oracle jitter max_retries).2
        = (List.range' 1 max_retries).map (fun k => backoff k (jitter k)) ∧
      (graphql_post_json oracle jitter max_retries).2.length
        = max_retries ∧
      (∀ k, 1 ≤ k → 2 * (k + 1) ≤ 8 →
        backoff k (jitter k) ≤ backoff (k + 1) (jitter (k + 1))) ∧
      (∀ k, 4 ≤ k → backoff k (jitter k) = 8 + jitter k) := by
  have hloop := attemptLoop_all_fail oracle err jitter max_retries 1 none
    (fun k hk1 hk2 => hfail k hk1 (by omega))
  have hne : max_retries ≠ 0 := by omega
  refine ⟨?_, ?_, ?_, ?_, ?_⟩
  · rw [graphql_post_json, hloop]
    simp only [hne, if_false]
    have h1 : 1 + max_retries - 1 = max_retries := by omega
    rw [h1]
  · rw [graphql_post_json, hloop]
  · rw [graphql_post_json, hloop]
    simp
  · intro k hk1 hk2
    have hk3 : k ≤ 3 := by omega
    have hc1 : 2 * (k : ℚ) ≤ 8 := by
      have : (k : ℚ) ≤ 3 := by exact_mod_cast hk3
      linarith
    have hc2 : 2 * ((k : ℚ) + 1) ≤ 8 := by
      have : (k : ℚ) ≤ 3 := by exact_mod_cast hk3
      linarith
    have hjk := hj k
    have hjk1 := hj (k + 1)
    rw [backoff, backoff, min_eq_left hc1]
    push_cast
    rw [min_eq_left (by push_cast at hc2 ⊢; linarith)]
    linarith [hjk.2, hjk1.1]
  · intro k hk
    have hc : (8 : ℚ) ≤ 2 * (k : ℚ) := by
      have : (4 : ℚ) ≤ (k : ℚ) := by exact_mod_cast hk
      linarith
    rw [backoff, min_eq_right hc]

/-- C5 witness. -/
theorem graphql_post_json_permanent_failure_witness :
    (∀ k, 1 ≤ k → k ≤ 4 →
        (fun n => (Except.error n : Except Nat Unit)) k = Except.error k) ∧
      (0 ≤ (1 : ℚ) / 4 ∧ (1 : ℚ) / 4 < 1 / 2) ∧
      ((graphql_post_json (fun n => (Except.error n : Except Nat Unit))
          (fun _ => (1 : ℚ) / 4) 4).1 = .error (some 4) ∧
        (graphql_post_json (fun n => (Except.error n : Except Nat Unit))
            (fun _ => (1 : ℚ) / 4) 4).2
          = (List.range' 1 4).map (fun k => backoff k ((1 : ℚ) / 4)) ∧
        (graphql_post_json (fun n => (Except.error n : Except Nat Unit))
            (fun _ => (1 : ℚ) / 4) 4).2.length = 4 ∧
        (∀ k, 1 ≤ k → 2 * (k + 1) ≤ 8 →
          backoff k ((1 : ℚ) / 4) ≤ backoff (k + 1) ((1 : ℚ) / 4)) ∧
        (∀ k, 4 ≤ k → backoff k ((1 : ℚ) / 4) = 8 + (1 : ℚ) / 4)) :=
  ⟨fun _ _ _ => rfl, ⟨by norm_num, by norm_num⟩,
    graphql_post_json_permanent_failure
      (fun n => (Except.error n : Except Nat Unit)) id
      (fun _ => (1 : ℚ) / 4) 4 (by norm_num) (fun _ _ _ => rfl)
      (fun _ => ⟨by norm_num, by norm_num⟩)⟩

/-- `fetch_page` (src/main.py lines 163-178): draw ONE proxy from the
rotator (`proxy = await rotator.next()`), then run the entire retry
loop `graphql_post_json` with that single proxy bound to every
attempt. The per-attempt outcome oracle takes the proxy and the
attempt number. -/
def fetch_page (rotator : ProxyRotator)
    (oracle : Option String → Nat → Except E A) (jitter : Nat → ℚ)
    (max_retries : Nat := 4) :
    (Except (Option E) A × List ℚ) × ProxyRotator :=
  (graphql_post_json (oracle rotator.next.1) jitter max_retries,
    rotator.next.2)

/-- C3 counterexample: a pool of five proxies, a range fetch whose
four attempts all fail. The claim predicts the rotation cursor
advances four times (once per attempt, landing at index 4); in the
code the proxy is drawn once in `fetch_page` before
`graphql_post_json`, so after four failed attempts the cursor has
advanced exactly once, to index 1. -/
theorem fetch_page_single_proxy_draw_cex :
    ((fetch_page (ProxyRotator.init ["p1", "p2", "p3", "p4", "p5"])
        (fun _ _ => (Except.error 0 : Except Nat Unit))
        (fun _ => (0 : ℚ)) 4).1.2.length = 4) ∧
      ((fetch_page (ProxyRotator.init ["p1", "p2", "p3", "p4", "p5"])
          (fun _ _ => (Except.error 0 : Except Nat Unit))
          (fun _ => (0 : ℚ)) 4).2.idx = 1) ∧
      ¬ ((fetch_page (ProxyRotator.init ["p1", "p2", "p3", "p4", "p5"])
          (fun _ _ => (Except.error 0 : Except Nat Unit))
          (fun _ => (0 : ℚ)) 4).2.idx = 4) := by
  exact ⟨rfl, rfl, by decide⟩

/-- C3 amended. The proxy is drawn once per `fetch_page` call, not
once per attempt: a range fetch advances the pool cursor exactly one
step however many attempts its retry loop makes, and every attempt of
the call is issued through that single drawn proxy (the proxy at the
pre-advance cursor). -/
theorem fetch_page_one_proxy_per_range (rotator : ProxyRotator)
    (oracle : Option String → Nat → Except E A) (err : Nat → E)
    (jitter : Nat → ℚ) (max_retries : Nat)
    (hn : rotator.n ≠ 0) (hmr : 1 ≤ max_retries)
    (hfail : ∀ k, 1 ≤ k → k ≤ max_retries →
      oracle rotator.next.1 k = .error (err k)) :
    (fetch_page rotator oracle jitter max_retries).2.idx
        = (rotator.idx + 1) % rotator.n ∧
      (fetch_page rotator oracle jitter max_retries).2.proxies
        = rotator.proxies ∧
      (fetch_page rotator oracle jitter max_retries).1
        = graphql_post_json (oracle rotator.next.1) jitter max_retries ∧
      (fetch_page rotator oracle jitter max_retries).1.2.length
        = max_retries := by
  have hnext : rotator.next
      = (rotator.proxies.get? rotator.idx,
          { rotator with idx := (rotator.idx + 1) % rotator.n }) := by
    rw [ProxyRotator.next, if_neg hn]
  have hloop := attemptLoop_all_fail (oracle rotator.next.1) err jitter
    max_retries 1 none (fun k hk1 hk2 => hfail k hk1 (by omega))
  refine ⟨?_, ?_, rfl, ?_⟩
  · rw [fetch_page, hnext]
  · rw [fetch_page, hnext]
  · rw [fetch_page, graphql_post_json, hloop]
    simp

/-- C3 amended witness. -/
theorem fetch_page_one_proxy_per_range_witness :
    ((ProxyRotator.init ["p", "q"]).n ≠ 0 ∧ 1 ≤ 4 ∧
        ∀ k, 1 ≤ k → k ≤ 4 →
          (fun (_ : Option String) (n : Nat) =>
            (Except.error n : Except Nat Unit)) (ProxyRotator.init ["p", "q"]).next.1 k
            = Except.error k) ∧
      ((fetch_page (ProxyRotator.init ["p", "q"])
          (fun _ n => (Except.error n : Except Nat Unit))
          (fun _ => (0 : ℚ)) 4).2.idx
          = ((ProxyRotator.init ["p", "q"]).idx + 1)
              % (ProxyRotator.init ["p", "q"]).n ∧
        (fetch_page (ProxyRotator.init ["p", "q"])
            (fun _ n => (Except.error n : Except Nat Unit))
            (fun _ => (0 : ℚ)) 4).2.proxies
          = (ProxyRotator.init ["p", "q"]).proxies ∧
        (fetch_page (ProxyRotator.init ["p", "q"])
            (fun _ n => (Except.error n : Except Nat Unit))
            (fun _ => (0 : ℚ)) 4).1
          = graphql_post_json
              ((fun (_ : Option String) (n : Nat) =>
                (Except.error n : Except Nat Unit))
                (ProxyRotator.init ["p", "q"]).next.1)
              (fun _ => (0 : ℚ)) 4 ∧
        (fetch_page (ProxyRotator.init ["p", "q"])
            (fun _ n => (Except.error n : Except Nat Unit))
            (fun _ => (0 : ℚ)) 4).1.2.length = 4) :=
  ⟨⟨by decide, by norm_num, fun _ _ _ => rfl⟩,
    fetch_page_one_proxy_per_range (ProxyRotator.init ["p", "q"])
      (fun _ n => (Except.error n : Except Nat Unit)) id
      (fun _ => (0 : ℚ)) 4 (by decide) (by norm_num) (fun _ _ _ => rfl)⟩

/-- C7 witness. -/
theorem dedup_first_writer_wins_witness :
    ((⟨some "a", "v1"⟩ : Record).productId = some "a" ∧ "a" ≠ "" ∧
        (⟨some "a", "v2"⟩ : Record).productId = some "a") ∧
      (dedup ([] ++ (⟨some "a", "v1"⟩ : Record)
            :: [] ++ (⟨some "a", "v2"⟩ : Record) :: [])
          = dedup ([] ++ (⟨some "a", "v1"⟩ : Record) :: [] ++ []) ∧
        ∀ q ∈ dedup ([] ++ (⟨some "a", "v1"⟩ : Record)
            :: [] ++ (⟨some "a", "v2"⟩ : Record) :: []),
          ([] ++ (⟨some "a", "v1"⟩ : Record)
              :: [] ++ (⟨some "a", "v2"⟩ : Record) :: []).find?
            (fun x => x.productId == q.productId) = some q) :=
  ⟨⟨rfl, by decide, rfl⟩,
    dedup_first_writer_wins [] [] [] _ _ "a" rfl (by decide) rfl⟩

/-- C9 witness. -/
theorem dedup_drops_falsy_pid_witness :
    ((⟨none, "orphan"⟩ : Record).productId = none ∨
        (⟨none, "orphan"⟩ : Record).productId = some "") ∧
      (dedup ([(⟨some "b", "w"⟩ : Record)] ++ (⟨none, "orphan"⟩ : Record) :: [])
          = dedup ([(⟨some "b", "w"⟩ : Record)] ++ []) ∧
        seenAfter [] ([(⟨some "b", "w"⟩ : Record)] ++ (⟨none, "orphan"⟩ : Record) :: [])
          = seenAfter [] ([(⟨some "b", "w"⟩ : Record)] ++ []) ∧
        ∀ q ∈ dedup ([(⟨some "b", "w"⟩ : Record)] ++ (⟨none, "orphan"⟩ : Record) :: []),
          ∃ s, q.productId = some s ∧ s ≠ "") :=
  ⟨Or.inl rfl,
    dedup_drops_falsy_pid [(⟨some "b", "w"⟩ : Record)] [] _ (Or.inl rfl)⟩

/-- The discovery response as `crawl_all_products` reads it
(src/main.py lines 210-214): `search_node.get("recordsFiltered", 0)
or 0` (absent / `None` / `0` all collapse to `0`, modelled by the
`Option`), and `search_node.get("products", []) or []`. -/
structure SearchNode where
  recordsFiltered : Option Nat
  products : Option (List Record)
deriving DecidableEq, Repr

/-- Lines 211-214: `total = recordsFiltered or 0`; if `total == 0 and
products_first`, the total is inferred as `len(products_first)`. -/
def inferTotal (node : SearchNode) : Nat :=
  let total := node.recordsFiltered.getD 0
  let products_first := node.products.getD []
  if total = 0 ∧ products_first ≠ [] then products_first.length
  else total

/-- The planner loop for a usable total (src/main.py lines 254-261):
`current = window; while current <= last_index: t = min(current +
window - 1, last_index); append (current, t); current = t + 1`.
The `while` loop is embedded with an explicit fuel argument; for
`window ≥ 1` (the regime in which the Python loop terminates at all)
the initial fuel `total` is never exhausted, as the coverage theorem
below shows. Natural subtraction in `current + window - 1` agrees
with Python for `window ≥ 1`. -/
def planAux (window last : Nat) : Nat → Nat → List (Nat × Nat)
  | 0, _ => []
  | fuel + 1, current =>
    if current ≤ last then
      (current, min (current + window - 1) last)
        :: planAux window last fuel (min (current + window - 1) last + 1)
    else []

def plannedRanges (total window : Nat) : List (Nat × Nat) :=
  planAux window (total - 1) total window

/-- `max_safety_pages = 2000` (src/main.py line 265). -/
def max_safety_pages : Nat := 2000

/-- The fallback branch (src/main.py lines 262-270): exactly
`max_safety_pages` fixed-size windows starting at `window`
(`t = current + window - 1; current = t + 1`, i.e. `current` advances
by `window` each iteration). -/
def safetyAux (window : Nat) : Nat → Nat → List (Nat × Nat)
  | 0, _ => []
  | n + 1, current =>
    (current, current + window - 1) :: safetyAux window n (current + window)

def safetyPages (window : Nat) : List (Nat × Nat) :=
  safetyAux window max_safety_pages window

/-- Lines 253-270: `if total and total > window:` plan by the known
total, `else:` the conservative rolling plan with the safety cap. -/
def planPages (total window : Nat) : List (Nat × Nat) :=
  if total ≠ 0 ∧ window < total then plannedRanges total window
  else safetyPages window

theorem safetyAux_length (window : Nat) :
    ∀ n current, (safetyAux window n current).length = n := by
  intro n
  induction n with
  | zero => intro c; rfl
  | succ n ih => intro c; simp [safetyAux, ih]

/-- C2 counterexample: discovery page returns 10 records with a
reported total of 0. The total is indeed inferred as 10, but the
planner does not produce zero additional ranges: `if total and
total > window` is false (10 ≤ 48), so the fallback branch schedules
the full 2000-range safety plan. -/
theorem inferTotal_small_total_plan_cex :
    inferTotal ⟨some 0, some (List.replicate 10 ⟨some "x", "y"⟩)⟩ = 10 ∧
      (planPages
        (inferTotal ⟨some 0, some (List.replicate 10 ⟨some "x", "y"⟩)⟩)
        48).length = 2000 ∧
      planPages
        (inferTotal ⟨some 0, some (List.replicate 10 ⟨some "x", "y"⟩)⟩)
        48 ≠ [] := by
  have h10 : inferTotal ⟨some 0, some (List.replicate 10 ⟨some "x", "y"⟩)⟩
      = 10 := by decide
  have hplan : planPages 10 48 = safetyPages 48 := by
    rw [planPages, if_neg]
    intro h
    omega
  have hlen : (safetyPages 48).length = 2000 :=
    safetyAux_length 48 max_safety_pages 48
  refine ⟨h10, ?_, ?_⟩
  · rw [h10, hplan, hlen]
  · rw [h10, hplan]
    intro h
    rw [h] at hlen
    simp at hlen
  
/-- C2 amended. When the discovery page returns records but the
reported total is zero or absent, the total is inferred as the count
of records on the discovery page; but when that inferred total is at
most the window size, the planner takes the `else` fallback branch and
schedules the 2000-range safety plan — ranges beyond the discovery
page ARE fetched, rather than zero additional ranges. -/
theorem inferTotal_fallback_plan (node : SearchNode) (window : Nat)
    (hrf : node.recordsFiltered = none ∨ node.recordsFiltered = some 0)
    (hne : node.products.getD [] ≠ []) :
    inferTotal node = (node.products.getD []).length ∧
      ((node.products.getD []).length ≤ window →
        planPages (inferTotal node) window = safetyPages window ∧
          (planPages (inferTotal node) window).length
            = max_safety_pages) := by
  have h0 : node.recordsFiltered.getD 0 = 0 := by
    rcases hrf with h | h <;> rw [h] <;> rfl
  have htot : inferTotal node = (node.products.getD []).length := by
    simp [inferTotal, h0, hne]
  refine ⟨htot, fun hle => ?_⟩
  have hplan : planPages (inferTotal node) window = safetyPages window := by
    rw [planPages, if_neg]
    rw [htot]
    intro h
    omega
  exact ⟨hplan, by rw [hplan]; exact safetyAux_length window _ window⟩

/-- C2 amended witness. -/
theorem inferTotal_fallback_plan_witness :
    ((⟨some 0, some (List.replicate 10 ⟨some "x", "y"⟩)⟩ : SearchNode).recordsFiltered = none ∨
        (⟨some 0, some (List.replicate 10 ⟨some "x", "y"⟩)⟩ : SearchNode).recordsFiltered = some 0) ∧
      (⟨some 0, some (List.replicate 10 ⟨some "x", "y"⟩)⟩ : SearchNode).products.getD [] ≠ [] ∧
      (inferTotal ⟨some 0, some (List.replicate 10 ⟨some "x", "y"⟩)⟩
          = ((⟨some 0, some (List.replicate 10 ⟨some "x", "y"⟩)⟩ : SearchNode).products.getD []).length ∧
        (((⟨some 0, some (List.replicate 10 ⟨some "x", "y"⟩)⟩ : SearchNode).products.getD []).length ≤ 48 →
          planPages (inferTotal ⟨some 0, some (List.replicate 10 ⟨some "x", "y"⟩)⟩) 48
              = safetyPages 48 ∧
            (planPages (inferTotal ⟨some 0, some (List.replicate 10 ⟨some "x", "y"⟩)⟩) 48).length
              = max_safety_pages)) :=
  ⟨Or.inr rfl, by decide,
    inferTotal_fallback_plan _ 48 (Or.inr rfl) (by decide)⟩

/-- Once `current` passes `last_index` the planner loop stops. -/
theorem planAux_of_gt (window last : Nat) :
    ∀ fuel current, last < current →
      planAux window last fuel current = [] := by
  intro fuel current h
  cases fuel with
  | zero => rfl
  | succ n => rw [planAux, if_neg (by omega)]

/-- Master invariant of the planner loop, by induction on the fuel:
starting at `current ≤ last` with enough fuel, the produced ranges
concatenate to exactly the index interval `[current, last]`, stay
inside `[current, last]`, have width `window` except possibly a final
truncated range ending at `last`, end at `last`, start with
`(current, min (current + window - 1) last)`, and have strictly
increasing start indices. -/
theorem planAux_spec (window last : Nat) (hw : 0 < window) :
    ∀ fuel current, current ≤ last → last + 1 ≤ current + fuel →
      ((planAux window last fuel current).flatMap
          (fun r => List.range' r.1 (r.2 + 1 - r.1))
        = List.range' current (last + 1 - current)) ∧
      (∀ r ∈ planAux window last fuel current,
        current ≤ r.1 ∧ r.1 ≤ r.2 ∧ r.2 ≤ last) ∧
      (∀ r ∈ planAux window last fuel current,
        r.2 + 1 - r.1 = window ∨ r.2 = last) ∧
      ((planAux window last fuel current).getLast?.map Prod.snd
        = some last) ∧
      ((planAux window last fuel current).head?
        = some (current, min (current + window - 1) last)) ∧
      (planAux window last fuel current).Pairwise
        (fun a b => a.1 < b.1) := by
  intro fuel
  induction fuel with
  | zero => intro current hc hf; omega
  | succ fuel ih =>
    intro current hc hf
    set t := min (current + window - 1) last with ht
    have hct : current ≤ t := by omega
    have htl : t ≤ last := by omega
    have hunfold : planAux window last (fuel + 1) current
        = (current, t) :: planAux window last fuel (t + 1) := by
      rw [planAux, if_pos hc]
    rcases Nat.lt_or_ge t last with hlt | hge
    · have hc' : t + 1 ≤ last := hlt
      have hf' : last + 1 ≤ t + 1 + fuel := by omega
      obtain ⟨ihbind, ihbound, ihsize, ihlast, ihhead, ihpair⟩ :=
        ih (t + 1) hc' hf'
      refine ⟨?_, ?_, ?_, ?_, ?_, ?_⟩
      · rw [hunfold, List.flatMap_cons, ihbind]
        have hm : current + (t + 1 - current) = t + 1 := by omega
        calc List.range' current (t + 1 - current)
              ++ List.range' (t + 1) (last + 1 - (t + 1))
            = List.range' current (t + 1 - current)
              ++ List.range' (current + (t + 1 - current))
                  (last + 1 - (t + 1)) := by rw [hm]
          _ = List.range' current
                (last + 1 - (t + 1) + (t + 1 - current)) :=
              List.range'_append_1 _ _ _
          _ = List.range' current (last + 1 - current) := by
              congr 1
              omega
      · intro r hr
        rw [hunfold] at hr
        rcases List.mem_cons.mp hr with rfl | hr'
        · exact ⟨le_refl _, hct, htl⟩
        · obtain ⟨h1, h2, h3⟩ := ihbound r hr'
          exact ⟨by omega, h2, h3⟩
      · intro r hr
        rw [hunfold] at hr
        rcases List.mem_cons.mp hr with rfl | hr'
        · left
          simp only []
          omega
        · exact ihsize r hr'
      · rw [hunfold]
        cases htail : planAux window last fuel (t + 1) with
        | nil => rw [htail] at ihlast; simp at ihlast
        | cons b bs =>
          rw [List.getLast?_cons_cons, ← htail, ihlast]
      · rw [hunfold]
        rfl
      · rw [hunfold]
        refine List.Pairwise.cons ?_ ihpair
        intro r hr
        have := (ihbound r hr).1
        simp only []
        omega
    · have hteq : t = last := le_antisymm htl hge
      have htail : planAux window last fuel (t + 1) = [] :=
        planAux_of_gt window last fuel (t + 1) (by omega)
      rw [hunfold, htail]
      refine ⟨?_, ?_, ?_, ?_, rfl, ?_⟩
      · rw [List.flatMap_cons, List.flatMap_nil, List.append_nil]
        congr 1
        omega
      · intro r hr
        rcases List.mem_cons.mp hr with rfl | hr'
        · exact ⟨le_refl _, hct, htl⟩
        · cases hr'
      · intro r hr
        rcases List.mem_cons.mp hr with rfl | hr'
        · right
          exact hteq
        · cases hr'
      · rw [List.getLast?_singleton]
        rw [hteq]
        rfl
      · exact List.pairwise_singleton _ _

/-- C4. For a known total `T` greater than the window `W`, the planned
ranges `[W,2W-1],[2W,3W-1],…` exactly partition the index interval
`[W, T-1]`: their concatenation is precisely the interval (hence
contiguous, non-overlapping, no gaps), every range lies inside
`[W, T-1]` (so the discovery range `[0, W-1]` is never included), each
range has width `W` except possibly the last, the final upper bound is
`T-1`, and start indices strictly increase. -/
theorem planner_partitions (total window : Nat) (hw : 0 < window)
    (hT : window < total) :
    ((planPages total window).flatMap
        (fun r => List.range' r.1 (r.2 + 1 - r.1))
      = List.range' window (total - window)) ∧
      (∀ r ∈ planPages total window,
        window ≤ r.1 ∧ r.1 ≤ r.2 ∧ r.2 ≤ total - 1) ∧
      (∀ r ∈ planPages total window,
        r.2 + 1 - r.1 = window ∨ r.2 = total - 1) ∧
      ((planPages total window).getLast?.map Prod.snd
        = some (total - 1)) ∧
      ((planPages total window).head?
        = some (window, min (window + window - 1) (total - 1))) ∧
      (planPages total window).Pairwise (fun a b => a.1 < b.1) := by
  have hcond : total ≠ 0 ∧ window < total := ⟨by omega, hT⟩
  have hplan : planPages total window
      = planAux window (total - 1) total window := by
    rw [planPages, if_pos hcond, plannedRanges]
  obtain ⟨hbind, hbound, hsize, hlast, hhead, hpair⟩ :=
    planAux_spec window (total - 1) hw total window (by omega) (by omega)
  rw [hplan]
  refine ⟨?_, hbound, hsize, hlast, hhead, hpair⟩
  rw [hbind]
  congr 1
  omega

/-- C4 witness: the spec's scenario `total = 500, window = 48`. -/
theorem planner_partitions_witness :
    (0 < 48 ∧ 48 < 500) ∧
      (((planPages 500 48).flatMap
          (fun r => List.range' r.1 (r.2 + 1 - r.1))
        = List.range' 48 (500 - 48)) ∧
        (∀ r ∈ planPages 500 48,
          48 ≤ r.1 ∧ r.1 ≤ r.2 ∧ r.2 ≤ 500 - 1) ∧
        (∀ r ∈ planPages 500 48,
          r.2 + 1 - r.1 = 48 ∨ r.2 = 500 - 1) ∧
        ((planPages 500 48).getLast?.map Prod.snd = some (500 - 1)) ∧
        ((planPages 500 48).head?
          = some (48, min (48 + 48 - 1) (500 - 1))) ∧
        (planPages 500 48).Pairwise (fun a b => a.1 < b.1)) :=
  ⟨⟨by decide, by decide⟩, planner_partitions 500 48 (by decide) (by decide)⟩

/-- The run's output directory, modelled as the list of per-range
artifact files in the order `sorted(glob("products_*.json"))` returns
them. A file is keyed by its range start index `f`: the names
`products_{f:08d}_{t:08d}.json` sort lexicographically as ascending
`f` (zero-padded to 8 digits). Writing a file inserts it at its
sorted position; writing an existing name overwrites it. -/
def insertArtifact (a : Nat × List Record) :
    List (Nat × List Record) → List (Nat × List Record)
  | [] => [a]
  | b :: rest =>
    if a.1 < b.1 then a :: b :: rest
    else if a.1 = b.1 then a :: rest
    else b :: insertArtifact a rest

/-- The directory contents after a sequence of artifact writes
(workers write in completion order; the directory listing is always
name-sorted). -/
def dirOfWrites (writes : List (Nat × List Record)) :
    List (Nat × List Record) :=
  writes.foldl (fun d a => insertArtifact a d) []

/-- The consolidation pass (src/main.py lines 282-296): read every
range artifact in sorted name order, concatenate their records, and
deduplicate into `products_all.jsonl`. -/
def consolidated (writes : List (Nat × List Record)) : List Record :=
  dedup ((dirOfWrites writes).flatMap Prod.snd)

theorem mem_insertArtifact (a x : Nat × List Record) :
    ∀ d, x ∈ insertArtifact a d → x = a ∨ x ∈ d := by
  intro d
  induction d with
  | nil =>
    intro hx
    rcases List.mem_singleton.mp hx with rfl
    exact Or.inl rfl
  | cons b rest ih =>
    intro hx
    rw [insertArtifact] at hx
    split at hx
    · rcases List.mem_cons.mp hx with rfl | h
      · exact Or.inl rfl
      · exact Or.inr h
    · split at hx
      · rcases List.mem_cons.mp hx with rfl | h
        · exact Or.inl rfl
        · exact Or.inr (List.mem_cons_of_mem _ h)
      · rcases List.mem_cons.mp hx with rfl | h
        · exact Or.inr (List.mem_cons_self _ _)
        · rcases ih h with h' | h'
          · exact Or.inl h'
          · exact Or.inr (List.mem_cons_of_mem _ h')

/-- Writing a fresh name is a pure insertion: the directory gains
exactly that file. -/
theorem insertArtifact_perm (a : Nat × List Record) :
    ∀ d, a.1 ∉ d.map Prod.fst →
      List.Perm (insertArtifact a d) (a :: d) := by
  intro d
  induction d with
  | nil => intro _; exact List.Perm.refl _
  | cons b rest ih =>
    intro hk
    have hab : a.1 ≠ b.1 := by
      intro h
      exact hk (by simp [h])
    have hk' : a.1 ∉ rest.map Prod.fst := by
      intro h
      exact hk (by simp [h])
    by_cases hlt : a.1 < b.1
    · rw [insertArtifact, if_pos hlt]
    · rw [insertArtifact, if_neg hlt, if_neg hab]
      exact (List.Perm.cons b (ih hk')).trans (List.Perm.swap a b rest)


/-- Insertion keeps the directory strictly sorted by start index. -/
theorem insertArtifact_sorted (a : Nat × List Record) :
    ∀ d, d.Pairwise (fun x y => x.1 < y.1) →
      (insertArtifact a d).Pairwise (fun x y => x.1 < y.1) := by
  intro d
  induction d with
  | nil => intro _; exact List.pairwise_singleton _ _
  | cons b rest ih =>
    intro hd
    obtain ⟨hb, hrest⟩ := List.pairwise_cons.mp hd
    by_cases hlt : a.1 < b.1
    · rw [insertArtifact, if_pos hlt]
      refine List.Pairwise.cons ?_ hd
      intro x hx
      rcases List.mem_cons.mp hx with rfl | h
      · omega
      · have := hb x h
        omega
    · by_cases heq : a.1 = b.1
      · rw [insertArtifact, if_neg hlt, if_pos heq]
        refine List.Pairwise.cons ?_ hrest
        intro x hx
        have := hb x hx
        omega
      · rw [insertArtifact, if_neg hlt, if_neg heq]
        refine List.Pairwise.cons ?_ (ih hrest)
        intro x hx
        rcases mem_insertArtifact a x rest hx with rfl | h
        · omega
        · exact hb x h

/-- Folding a batch of writes with pairwise-distinct names into the
directory is, up to order, just appending them. -/
theorem foldl_insertArtifact_perm :
    ∀ (writes acc : List (Nat × List Record)),
      ((writes.map Prod.fst) ++ (acc.map Prod.fst)).Nodup →
      List.Perm (writes.foldl (fun d a => insertArtifact a d) acc)
        (writes ++ acc) := by
  intro writes
  induction writes with
  | nil => intro acc _; simp
  | cons a rest ih =>
    intro acc hnd
    have hsplit : a.1 ∉ rest.map Prod.fst ∧ a.1 ∉ acc.map Prod.fst ∧
        ((rest.map Prod.fst) ++ (acc.map Prod.fst)).Nodup := by
      simp only [List.map_cons, List.cons_append, List.nodup_cons,
        List.mem_append] at hnd
      exact ⟨fun h => hnd.1 (Or.inl h), fun h => hnd.1 (Or.inr h), hnd.2⟩
    have hins : List.Perm (insertArtifact a acc) (a :: acc) :=
      insertArtifact_perm a acc hsplit.2.1
    have hkeys : List.Perm ((insertArtifact a acc).map Prod.fst)
        (a.1 :: acc.map Prod.fst) := by
      simpa using hins.map Prod.fst
    have hnd' : ((rest.map Prod.fst)
        ++ ((insertArtifact a acc).map Prod.fst)).Nodup := by
      have hperm : List.Perm
          ((rest.map Prod.fst) ++ ((insertArtifact a acc).map Prod.fst))
          ((rest.map Prod.fst) ++ (a.1 :: acc.map Prod.fst)) :=
        List.Perm.append_left _ hkeys
      refine hperm.symm.nodup ?_
      have h2 : List.Perm
          ((rest.map Prod.fst) ++ (a.1 :: acc.map Prod.fst))
          (a.1 :: ((rest.map Prod.fst) ++ acc.map Prod.fst)) :=
        List.perm_middle
      refine h2.symm.nodup ?_
      rw [List.nodup_cons]
      refine ⟨?_, hsplit.2.2⟩
      intro h
      rcases List.mem_append.mp h with h' | h'
      · exact hsplit.1 h'
      · exact hsplit.2.1 h'
    have hrec : List.Perm
        (rest.foldl (fun d a => insertArtifact a d) (insertArtifact a acc))
        (rest ++ insertArtifact a acc) := ih (insertArtifact a acc) hnd'
    have hstep : List.Perm (rest ++ insertArtifact a acc) (rest ++ (a :: acc)) :=
      List.Perm.append_left _ hins
    have hmid : List.Perm (rest ++ (a :: acc)) (a :: (rest ++ acc)) :=
      List.perm_middle
    exact (hrec.trans hstep).trans hmid

/-- The directory listing is strictly sorted by start index. -/
theorem dirOfWrites_sorted (writes : List (Nat × List Record)) :
    (dirOfWrites writes).Pairwise (fun x y => x.1 < y.1) := by
  rw [dirOfWrites]
  suffices h : ∀ (ws acc : List (Nat × List Record)),
      acc.Pairwise (fun x y => x.1 < y.1) →
      (ws.foldl (fun d a => insertArtifact a d) acc).Pairwise
        (fun x y => x.1 < y.1) from
    h writes [] List.Pairwise.nil
  intro ws
  induction ws with
  | nil => intro acc hacc; exact hacc
  | cons a rest ih =>
    intro acc hacc
    exact ih (insertArtifact a acc) (insertArtifact_sorted a acc hacc)

/-- The numeric contents of `manifest.json` (src/main.py lines
299-311). Besides these the code writes only `timestamp_utc` (the run
timestamp) and `jsonl` (the consolidated-output path); there is no
other field. -/
structure Manifest where
  pages_written : Nat
  unique_products : Nat
deriving DecidableEq, Repr

/-- Observable result of a completed `crawl_all_products` run:
the estimated total written to `meta.json`, the local
`total_downloaded` counter (records seen before dedup, lines 275-278,
never written to any file), the consolidated `products_all.jsonl`
contents, and the manifest. -/
structure RunOutput where
  estimated_total : Nat
  total_downloaded : Nat
  output : List Record
  manifest : Manifest
deriving DecidableEq, Repr

/-- The fetch phase (src/main.py lines 241-279): a task per planned
page runs `worker`, which fetches the page and extracts
`products or []`; `crawl_all_products` then awaits every task
(`for coro in asyncio.as_completed(tasks): got = await coro`) with no
exception handling, so one task's terminal `RuntimeError` propagates
and aborts the whole coroutine. Awaiting is modelled sequentially:
the run yields the per-page record lists, or the error of a failed
page. -/
def fetchAll (fetchRange : Nat → Nat → Except String SearchNode) :
    List (Nat × Nat) → Except String (List (List Record))
  | [] => .ok []
  | (f, t) :: rest =>
    match fetchRange f t with
    | .error e => .error e
    | .ok node =>
      match fetchAll fetchRange rest with
      | .error e => .error e
      | .ok rs => .ok ((node.products.getD []) :: rs)

/-- `crawl_all_products` (src/main.py lines 180-311). `discovery` is
the outcome of the first `graphql_post_json` call (its terminal
failure aborts the run); `fetchRange` is the outcome of a worker's
`fetch_page` for a given range, after `fetch_page`'s own retries.
On success the run writes the discovery artifact `(0, products_first)`
and one artifact per page, consolidates the directory in sorted name
order, and writes the manifest; any page's terminal failure escapes
`await coro` and the function raises instead of producing output. -/
def crawl_all_products (window : Nat)
    (discovery : Except String SearchNode)
    (fetchRange : Nat → Nat → Except String SearchNode) :
    Except String RunOutput :=
  match discovery with
  | .error e => .error e
  | .ok node =>
    let products_first := node.products.getD []
    let total := inferTotal node
    let pages := planPages total window
    match fetchAll fetchRange pages with
    | .error e => .error e
    | .ok prodsList =>
      let writes := (0, products_first)
          :: (pages.zip prodsList).map (fun x => (x.1.1, x.2))
      let dir := dirOfWrites writes
      let output := dedup (dir.flatMap Prod.snd)
      .ok { estimated_total := total,
            total_downloaded :=
              products_first.length + (prodsList.map List.length).sum,
            output := output,
            manifest := { pages_written := dir.length,
                          unique_products := output.length } }

/-- A page whose fetch fails terminally makes the whole await phase
fail. -/
theorem fetchAll_error (fetchRange : Nat → Nat → Except String SearchNode) :
    ∀ pages : List (Nat × Nat),
      (∃ pg ∈ pages, ∃ e, fetchRange pg.1 pg.2 = .error e) →
      ∃ e', fetchAll fetchRange pages = .error e' := by
  intro pages
  induction pages with
  | nil => rintro ⟨pg, hpg, _⟩; cases hpg
  | cons p rest ih =>
    rintro ⟨pg, hpg, e, he⟩
    obtain ⟨f, t⟩ := p
    rcases List.mem_cons.mp hpg with rfl | hmem
    · exact ⟨e, by rw [fetchAll, he]⟩
    · cases hft : fetchRange f t with
      | error e' => exact ⟨e', by rw [fetchAll, hft]⟩
      | ok node =>
        obtain ⟨e', he'⟩ := ih ⟨pg, hmem, e, he⟩
        exact ⟨e', by rw [fetchAll, hft, he']⟩

/-- C1 counterexample: window 2, discovery reports total 6 (so two
further ranges `[2,3]` and `[4,5]` are planned), the fetch of `[2,3]`
exhausts its retries while `[4,5]` succeeds. The run does not
complete with a manifest: the exception propagates out of
`crawl_all_products`. -/
theorem range_failure_aborts_cex :
    crawl_all_products 2
        (Except.ok ⟨some 6, some [⟨some "1", "x"⟩, ⟨some "2", "y"⟩]⟩)
        (fun f _ => if f = 2
          then Except.error "range 2-3 failed after retries"
          else Except.ok ⟨none, some [⟨some "3", "z"⟩]⟩)
      = Except.error "range 2-3 failed after retries" := by
  rfl

/-- C1 amended. A non-discovery range's terminal failure is NOT
contained: `worker` has no exception handler and `await coro`
re-raises, so whenever any planned range's fetch fails after its
retries the whole run errors out — sibling results are discarded and
no consolidated output or manifest is produced. -/
theorem range_failure_aborts_run (window : Nat) (node : SearchNode)
    (fetchRange : Nat → Nat → Except String SearchNode)
    (hfail : ∃ pg ∈ planPages (inferTotal node) window,
      ∃ e, fetchRange pg.1 pg.2 = .error e) :
    ∃ e', crawl_all_products window (.ok node) fetchRange
      = .error e' := by
  obtain ⟨e', he'⟩ := fetchAll_error fetchRange _ hfail
  exact ⟨e', by rw [crawl_all_products]; rw [he']⟩

/-- C1 amended witness. -/
theorem range_failure_aborts_run_witness :
    (∃ pg ∈ planPages
        (inferTotal ⟨some 6, some [⟨some "1", "x"⟩, ⟨some "2", "y"⟩]⟩) 2,
      ∃ e, (fun f _ => if f = 2
          then Except.error "range 2-3 failed after retries"
          else Except.ok (⟨none, some [⟨some "3", "z"⟩]⟩ : SearchNode))
        pg.1 pg.2 = Except.error e) ∧
      ∃ e', crawl_all_products 2
          (.ok ⟨some 6, some [⟨some "1", "x"⟩, ⟨some "2", "y"⟩]⟩)
          (fun f _ => if f = 2
            then Except.error "range 2-3 failed after retries"
            else Except.ok ⟨none, some [⟨some "3", "z"⟩]⟩)
        = .error e' :=
  ⟨⟨(2, 3), by decide, "range 2-3 failed after retries", rfl⟩,
    range_failure_aborts_run 2 _ _
      ⟨(2, 3), by decide, "range 2-3 failed after retries", rfl⟩⟩

theorem safetyAux_keys (window : Nat) (hw : 0 < window) :
    ∀ n current, (∀ r ∈ safetyAux window n current, current ≤ r.1) ∧
      (safetyAux window n current).Pairwise (fun a b => a.1 < b.1) := by
  intro n
  induction n with
  | zero =>
    intro c
    exact ⟨fun r hr => absurd hr (List.not_mem_nil r), List.Pairwise.nil⟩
  | succ n ih =>
    intro c
    constructor
    · intro r hr
      rw [safetyAux] at hr
      rcases List.mem_cons.mp hr with rfl | h
      · exact le_refl _
      · have := (ih (c + window)).1 r h
        omega
    · rw [safetyAux]
      refine List.Pairwise.cons ?_ (ih (c + window)).2
      intro r hr
      have := (ih (c + window)).1 r hr
      simp only []
      omega

/-- Every planned range starts at or after `window`, and start
indices strictly increase (hence all page file names are distinct
and none collides with the discovery file at start 0). -/
theorem planPages_keys (total window : Nat) (hw : 0 < window) :
    (∀ r ∈ planPages total window, window ≤ r.1) ∧
      (planPages total window).Pairwise (fun a b => a.1 < b.1) := by
  by_cases hcond : total ≠ 0 ∧ window < total
  · rw [planPages, if_pos hcond, plannedRanges]
    obtain ⟨_, hbound, _, _, _, hpair⟩ :=
      planAux_spec window (total - 1) hw total window (by omega) (by omega)
    exact ⟨fun r hr => (hbound r hr).1, hpair⟩
  · rw [planPages, if_neg hcond, safetyPages]
    exact safetyAux_keys window hw max_safety_pages window

/-- When the await phase succeeds it yields one record batch per
planned page. -/
theorem fetchAll_length (fetchRange : Nat → Nat → Except String SearchNode) :
    ∀ (pages : List (Nat × Nat)) (rs : List (List Record)),
      fetchAll fetchRange pages = .ok rs → rs.length = pages.length := by
  intro pages
  induction pages with
  | nil =>
    intro rs h
    rw [fetchAll] at h
    cases h
    rfl
  | cons p rest ih =>
    intro rs h
    obtain ⟨f, t⟩ := p
    rw [fetchAll] at h
    cases hft : fetchRange f t with
    | error e => rw [hft] at h; cases h
    | ok node =>
      rw [hft] at h
      cases hfa : fetchAll fetchRange rest with
      | error e => rw [hfa] at h; cases h
      | ok rs' =>
        rw [hfa] at h
        cases h
        simp [ih rs' hfa]

theorem zip_write_keys (pages : List (Nat × Nat)) :
    ∀ rs : List (List Record), rs.length = pages.length →
      ((pages.zip rs).map (fun x => (x.1.1, x.2))).map Prod.fst
        = pages.map Prod.fst := by
  induction pages with
  | nil => intro rs _; simp
  | cons p rest ih =>
    intro rs hlen
    cases rs with
    | nil => simp at hlen
    | cons r rs' =>
      simp only [List.zip_cons_cons, List.map_cons]
      rw [ih rs' (by simpa using hlen)]

/-- C8 counterexample: a completed run that saw 3 records before
deduplication (2 unique, 2 artifact files). The manifest holds only
`pages_written = 2` and `unique_products = 2` (plus a timestamp and
the output path): no field equals the pre-dedup record count 3, and
no field reports a degraded-range count at all. -/
theorem manifest_missing_fields_cex :
    crawl_all_products 2
        (Except.ok ⟨some 4,
          some [⟨some "1", "x"⟩, ⟨some "1", "y"⟩, ⟨some "2", "z"⟩]⟩)
        (fun _ _ => Except.ok ⟨none, none⟩)
      = Except.ok ⟨4, 3, [⟨some "1", "x"⟩, ⟨some "2", "z"⟩], ⟨2, 2⟩⟩ ∧
      (⟨2, 2⟩ : Manifest).pages_written ≠ 3 ∧
      (⟨2, 2⟩ : Manifest).unique_products ≠ 3 :=
  ⟨rfl, by decide, by decide⟩

/-- C8 amended. The manifest of a completed run reports the number of
page artifact files written (one per attempted range, discovery
included, since in a completed run every attempted range produced its
file and file names are distinct) and the unique record count after
deduplication — and nothing else numeric: the pre-dedup record total
is only accumulated in the local `total_downloaded` variable, and no
degraded-range count exists (a degraded range would have aborted the
run). -/
theorem manifest_reports (window : Nat) (hw : 0 < window)
    (node : SearchNode)
    (fetchRange : Nat → Nat → Except String SearchNode)
    (run : RunOutput)
    (hok : crawl_all_products window (.ok node) fetchRange = .ok run) :
    run.manifest.pages_written
        = 1 + (planPages (inferTotal node) window).length ∧
      run.manifest.unique_products = run.output.length ∧
      ∃ prodsList,
        fetchAll fetchRange (planPages (inferTotal node) window)
            = .ok prodsList ∧
          run.total_downloaded = (node.products.getD []).length
            + (prodsList.map List.length).sum := by
  cases hfa : fetchAll fetchRange (planPages (inferTotal node) window) with
  | error e =>
    simp only [crawl_all_products, hfa] at hok
    exact (Except.noConfusion hok)
  | ok prodsList =>
    simp only [crawl_all_products, hfa] at hok
    injection hok with hrun
    subst hrun
    have hlen : prodsList.length
        = (planPages (inferTotal node) window).length :=
      fetchAll_length fetchRange _ _ hfa
    have hkeys : (((0, node.products.getD [])
        :: ((planPages (inferTotal node) window).zip prodsList).map
          (fun x => (x.1.1, x.2))).map Prod.fst).Nodup := by
      rw [List.map_cons, zip_write_keys _ _ hlen, List.nodup_cons]
      obtain ⟨hge, hpair⟩ := planPages_keys (inferTotal node) window hw
      constructor
      · intro h0
        obtain ⟨r, hr, hr0⟩ := List.mem_map.mp h0
        have := hge r hr
        omega
      · exact (List.pairwise_map.mpr hpair).imp Nat.ne_of_lt
    have hperm := foldl_insertArtifact_perm
      ((0, node.products.getD [])
        :: ((planPages (inferTotal node) window).zip prodsList).map
          (fun x => (x.1.1, x.2))) [] (by simpa using hkeys)
    refine ⟨?_, rfl, prodsList, rfl, rfl⟩
    show (dirOfWrites _).length = _
    rw [dirOfWrites, hperm.length_eq]
    simp [List.length_zip, hlen]
    omega

/-- C8 amended witness. -/
theorem manifest_reports_witness :
    (0 < 2 ∧
        crawl_all_products 2
            (Except.ok ⟨some 4,
              some [⟨some "1", "x"⟩, ⟨some "1", "y"⟩, ⟨some "2", "z"⟩]⟩)
            (fun _ _ => Except.ok ⟨none, none⟩)
          = Except.ok ⟨4, 3, [⟨some "1", "x"⟩, ⟨some "2", "z"⟩], ⟨2, 2⟩⟩) ∧
      ((⟨4, 3, [⟨some "1", "x"⟩, ⟨some "2", "z"⟩],
            ⟨2, 2⟩⟩ : RunOutput).manifest.pages_written
          = 1 + (planPages
              (inferTotal ⟨some 4,
                some [⟨some "1", "x"⟩, ⟨some "1", "y"⟩,
                  ⟨some "2", "z"⟩]⟩) 2).length ∧
        (⟨4, 3, [⟨some "1", "x"⟩, ⟨some "2", "z"⟩],
            ⟨2, 2⟩⟩ : RunOutput).manifest.unique_products
          = (⟨4, 3, [⟨some "1", "x"⟩, ⟨some "2", "z"⟩],
              ⟨2, 2⟩⟩ : RunOutput).output.length ∧
        ∃ prodsList,
          fetchAll (fun _ _ => Except.ok ⟨none, none⟩)
              (planPages
                (inferTotal ⟨some 4,
                  some [⟨some "1", "x"⟩, ⟨some "1", "y"⟩,
                    ⟨some "2", "z"⟩]⟩) 2)
              = .ok prodsList ∧
            (⟨4, 3, [⟨some "1", "x"⟩, ⟨some "2", "z"⟩],
                ⟨2, 2⟩⟩ : RunOutput).total_downloaded
              = ((⟨some 4,
                  some [⟨some "1", "x"⟩, ⟨some "1", "y"⟩,
                    ⟨some "2", "z"⟩]⟩ : SearchNode).products.getD []).length
                + (prodsList.map List.length).sum) :=
  ⟨⟨by decide, rfl⟩,
    manifest_reports 2 (by decide) _ _ _ rfl⟩

/-- C10. The consolidated output is a function of the artifact files
alone: (i) two write sequences that are permutations of each other —
the same files written in any completion order — produce identical
directories and identical consolidated output; (ii) aggregation reads
the directory in strictly ascending range-start order (the sorted
file-name order); (iii) every surviving record is the first record
carrying its identifier in that ascending-order concatenation, so a
duplicated identifier keeps the payload from the lowest-indexed
range. -/
theorem consolidated_completion_order_independent
    (w₁ w₂ : List (Nat × List Record)) (hperm : List.Perm w₁ w₂)
    (hnodup : (w₁.map Prod.fst).Nodup) :
    consolidated w₁ = consolidated w₂ ∧
      (dirOfWrites w₁).Pairwise (fun a b => a.1 < b.1) ∧
      ∀ r ∈ consolidated w₁, ∃ s, r.productId = some s ∧ s ≠ "" ∧
        ((dirOfWrites w₁).flatMap Prod.snd).find?
          (fun x => x.productId == some s) = some r := by
  have hnodup₂ : (w₂.map Prod.fst).Nodup :=
    (hperm.map Prod.fst).nodup hnodup
  have h1 : List.Perm (dirOfWrites w₁) w₁ := by
    have := foldl_insertArtifact_perm w₁ [] (by simpa using hnodup)
    simpa [dirOfWrites] using this
  have h2 : List.Perm (dirOfWrites w₂) w₂ := by
    have := foldl_insertArtifact_perm w₂ [] (by simpa using hnodup₂)
    simpa [dirOfWrites] using this
  have h12 : List.Perm (dirOfWrites w₁) (dirOfWrites w₂) :=
    (h1.trans hperm).trans h2.symm
  haveI : IsAntisymm (Nat × List Record) (fun a b => a.1 < b.1) :=
    ⟨fun a b hab hba => absurd hba (by omega)⟩
  have hdir : dirOfWrites w₁ = dirOfWrites w₂ :=
    List.eq_of_perm_of_sorted h12 (dirOfWrites_sorted w₁)
      (dirOfWrites_sorted w₂)
  refine ⟨by rw [consolidated, consolidated, hdir], dirOfWrites_sorted w₁, ?_⟩
  intro r hr
  obtain ⟨s, hs1, hs2, _, hs4⟩ := mem_dedupAux_first _ _ _ hr
  exact ⟨s, hs1, hs2, hs4⟩

/-- C10 witness: the same two artifacts written in either completion
order. -/
theorem consolidated_completion_order_independent_witness :
    (List.Perm
        [((48 : Nat), [(⟨some "1", "later"⟩ : Record)]),
          ((0 : Nat), [(⟨some "1", "first"⟩ : Record)])]
        [((0 : Nat), [(⟨some "1", "first"⟩ : Record)]),
          ((48 : Nat), [(⟨some "1", "later"⟩ : Record)])] ∧
      (([((48 : Nat), [(⟨some "1", "later"⟩ : Record)]),
          ((0 : Nat), [(⟨some "1", "first"⟩ : Record)])].map
            Prod.fst).Nodup)) ∧
      (consolidated
          [((48 : Nat), [(⟨some "1", "later"⟩ : Record)]),
            ((0 : Nat), [(⟨some "1", "first"⟩ : Record)])]
        = consolidated
          [((0 : Nat), [(⟨some "1", "first"⟩ : Record)]),
            ((48 : Nat), [(⟨some "1", "later"⟩ : Record)])] ∧
        (dirOfWrites
            [((48 : Nat), [(⟨some "1", "later"⟩ : Record)]),
              ((0 : Nat), [(⟨some "1", "first"⟩ : Record)])]).Pairwise
          (fun a b => a.1 < b.1) ∧
        ∀ r ∈ consolidated
            [((48 : Nat), [(⟨some "1", "later"⟩ : Record)]),
              ((0 : Nat), [(⟨some "1", "first"⟩ : Record)])],
          ∃ s, r.productId = some s ∧ s ≠ "" ∧
            ((dirOfWrites
                [((48 : Nat), [(⟨some "1", "later"⟩ : Record)]),
                  ((0 : Nat), [(⟨some "1", "first"⟩ : Record)])]).flatMap
                Prod.snd).find?
              (fun x => x.productId == some s) = some r) :=
  ⟨⟨List.Perm.swap _ _ _, by decide⟩,
    consolidated_completion_order_independent _ _
      (List.Perm.swap _ _ _) (by decide)⟩
